import Mathlib

/-!
Shallow embedding of `src/mrsim/base/base.py` (class `AbstractModel` and the
module-level helpers `_is_implemented` and `_get_argnums`).

Python dictionaries are modelled as association lists that keep Python's
insertion-order semantics: updating an existing key keeps its position,
inserting a fresh key appends it at the end.  Python keyword binding of a
call `f(**d)` depends only on the key-to-value mapping, so engines are
modelled as functions from a lookup map `String → Option V` to a result.

The external vectorization and differentiation facilities (`torch.vmap` and
the `jacfwd` decorator imported from the sibling `decorators` module, which
is not part of the sources) are kept abstract: `forward` and `jacobian`
return descriptions of the callables the Python code builds, and separate
`invoke` functions apply an arbitrary facility to those descriptions.
-/

namespace Mrsim

/-- An association-list model of a Python dict from strings to `V`. -/
abbrev Dict (V : Type) := List (String × V)

/-- Python `k in d`: does the dict hold the key `k`? -/
def dictHasKey {V : Type} (d : Dict V) (k : String) : Bool :=
  d.any (fun p => p.1 == k)

/-- Python `d[k] = v`: update in place when the key exists, append otherwise. -/
def dictSet {V : Type} (d : Dict V) (k : String) (v : V) : Dict V :=
  if dictHasKey d k then d.map (fun p => if p.1 == k then (k, v) else p)
  else d ++ [(k, v)]

/-- Python `{**d1, **d2}`: start from `d1` and set every entry of `d2` in turn. -/
def dictMerge {V : Type} (d1 d2 : Dict V) : Dict V :=
  d2.foldl (fun acc p => dictSet acc p.1 p.2) d1

/-- Python `dict(pairs)`: build a dict from a list of key-value pairs. -/
def dictOfPairs {V : Type} (l : List (String × V)) : Dict V :=
  dictMerge [] l

/-- Python `d.get(k)` / keyword binding: the value stored under `k`, if any. -/
def dictLookup {V : Type} (d : Dict V) (k : String) : Option V :=
  (d.find? (fun p => p.1 == k)).map Prod.snd

/-- One parameter of a Python function signature: a name and an optional
default value (`inspect.Parameter`). -/
structure Param (V : Type) where
  name : String
  default : Option V
deriving Repr

/-- A Python function signature: its parameters in declaration order. -/
abbrev Signature (V : Type) := List (Param V)

/-- Exceptions the embedded code can raise. -/
inductive PyErr where
  | keyError (k : String)
  | valueError
  | indexError
  | typeError
deriving Repr, DecidableEq

/-- The `diff` attribute of a model: `None`, a single parameter name (`str`),
a collection of names (`tuple`/`list`), or a value of any other type. -/
inductive DiffSpec where
  | noDiff
  | single (name : String)
  | multi (names : List String)
  | invalid
deriving Repr, DecidableEq

/-- Differentiation argument indices as produced by `_get_argnums`: a bare
index for a `str` diff, a tuple of indices for a `tuple`/`list` diff. -/
inductive Argnums where
  | single (n : Nat)
  | multi (ns : List Nat)
deriving Repr, DecidableEq

/-- A Python callable invoked with keyword arguments only: its result depends
on the name-to-value binding it receives. -/
abbrev KwFunc (V R : Type) := (String → Option V) → R

/-- The dict comprehension in `_get_func` that keeps every signature parameter
having a default value, in signature order. -/
def defaultArgs {V : Type} (sig : Signature V) : Dict V :=
  sig.filterMap (fun p => p.default.map (fun v => (p.name, v)))

/-- The loop in `_get_func` that writes the positional arguments over the
first `len(args)` parameter names; `parameter_names[idx]` raises `IndexError`
when there are more positional arguments than parameters. -/
def setPositional {V : Type} : Dict V → List String → List V → Except PyErr (Dict V)
  | d, _, [] => .ok d
  | _, [], _ :: _ => .error .indexError
  | d, n :: ns, a :: rest => setPositional (dictSet d n a) ns rest

/-- The merged argument map built by `_get_func`: defaults, overridden by the
user keyword arguments, then the positional arguments written over the first
parameters in signature order. -/
def mergeArgs {V : Type} (sig : Signature V) (args : List V) (kwargs : Dict V) :
    Except PyErr (Dict V) :=
  setPositional (dictMerge (defaultArgs sig) kwargs) (sig.map Param.name) args

/-- The broadcastable group of `_get_func`: merged entries whose key is one of
the model's broadcastable parameter names. -/
def broadcastableOf {V : Type} (bparams : List String) (merged : Dict V) : Dict V :=
  merged.filter (fun p => bparams.contains p.1)

/-- The non-broadcastable group of `_get_func`: all remaining merged entries. -/
def nonBroadcastableOf {V : Type} (bparams : List String) (merged : Dict V) : Dict V :=
  merged.filter (fun p => !(bparams.contains p.1))

/-- The closure `func(*args)` built inside `_get_func`: it zips the
broadcastable keys with the positional values it receives, merges the captured
non-broadcastable arguments on top, and calls the original engine with the
combined keyword map. -/
def wrapFunc {V R : Type} (engine : KwFunc V R) (bkeys : List String) (nonb : Dict V) :
    List V → R :=
  fun vals => engine (dictLookup (dictMerge (dictOfPairs (List.zip bkeys vals)) nonb))

/-- The pairs `zip(ARGS, range(len(ARGS)))` of `_get_argnums`, generalized
over the starting index. -/
def argpairs (i : Nat) : List String → Dict Nat
  | [] => []
  | k :: t => (k, i) :: argpairs (i + 1) t

/-- The `ARGMAP` dict of `_get_argnums`: each broadcastable key mapped to its
enumeration index. -/
def argmap (keys : List String) : Dict Nat :=
  dictOfPairs (argpairs 0 keys)

/-- The list comprehension `[ARGMAP[d] for d in diff]`: left to right, raising
`KeyError` at the first missing name. -/
def lookupAll (am : Dict Nat) : List String → Except PyErr (List Nat)
  | [] => .ok []
  | s :: t =>
    match dictLookup am s with
    | some n => (lookupAll am t).map (fun ns => n :: ns)
    | Option.none => .error (.keyError s)

/-- The module-level helper `_get_argnums`: an index for a `str` diff, a tuple
of indices for a `tuple`/`list` diff, `ValueError` for anything else. -/
def getArgnums (diff : DiffSpec) (keys : List String) : Except PyErr Argnums :=
  match diff with
  | .single s =>
    match dictLookup (argmap keys) s with
    | some n => .ok (.single n)
    | Option.none => .error (.keyError s)
  | .multi names => (lookupAll (argmap keys) names).map .multi
  | .noDiff => .error .valueError
  | .invalid => .error .valueError

/-- The module-level helper `_is_implemented`, over the retrievable source
text of a method (`none` when `inspect.getsource` fails): implemented exactly
when the text contains neither `"raise NotImplementedError"` nor `"pass"`.
String containment is substring containment, as for Python's `in`. -/
def leadsList : List Char → List Char → Bool
  | [], _ => true
  | _ :: _, [] => false
  | a :: as_, b :: bs => a == b && leadsList as_ bs

/-- Substring search over character lists: does `hay` contain `needle`? -/
def containsSub (needle : List Char) : List Char → Bool
  | [] => leadsList needle []
  | c :: t => leadsList needle (c :: t) || containsSub needle t

/-- Python `sub in s` on strings: substring containment. -/
def strContains (s sub : String) : Bool :=
  containsSub sub.toList s.toList

/-- The module-level helper `_is_implemented` on the retrievable source text. -/
def isImplemented (source : Option String) : Bool :=
  match source with
  | some src =>
    !(strContains src "raise NotImplementedError") && !(strContains src "pass")
  | Option.none => false

/-- The triple returned by `_get_func`: the wrapped engine, the list of
broadcastable argument values, and the differentiation indices (present iff
`diff` is not `None`). -/
structure FuncResult (V R : Type) where
  func : List V → R
  bvals : List V
  argnums : Option Argnums

/-- The method `AbstractModel._get_func`, with the model state it reads
(`broadcastable_params` and `diff`) passed explicitly, applied to an engine
together with its signature. -/
def getFunc {V R : Type} (bparams : List String) (diff : DiffSpec)
    (engine : KwFunc V R) (sig : Signature V)
    (args : List V) (kwargs : Dict V) : Except PyErr (FuncResult V R) :=
  match mergeArgs sig args kwargs with
  | .error e => .error e
  | .ok merged =>
    let b := broadcastableOf bparams merged
    let nb := nonBroadcastableOf bparams merged
    let f := wrapFunc engine (b.map Prod.fst) nb
    match diff with
    | .noDiff => .ok ⟨f, b.map Prod.snd, Option.none⟩
    | d =>
      match getArgnums d (b.map Prod.fst) with
      | .error e => .error e
      | .ok a => .ok ⟨f, b.map Prod.snd, some a⟩

/-- An `AbstractModel` instance.  `broadcastable_params` is the set computed
by `__init__` from the parameter names of the subclass's `set_properties`;
`engineSig`/`engine` model the static `_engine` and its signature,
`jacSig`/`jacEngine` the optional manual `_jacobian_engine`, and `jacSource`
the source text `inspect.getsource` retrieves for `_jacobian_engine`. -/
structure Model (V R J : Type) where
  chunk_size : Nat
  diff : DiffSpec
  broadcastable_params : List String
  engineSig : Signature V
  engine : KwFunc V R
  jacSig : Signature V
  jacEngine : KwFunc V J
  jacSource : Option String

/-- The callable built by `AbstractModel.forward`: `torch.vmap` is to be
applied to `func` with `chunk_size`, and the result is partially applied to
the broadcastable values `pargs` (`functools.partial`). -/
structure ForwardFn (V R : Type) where
  chunk : Nat
  func : List V → R
  pargs : List V

/-- Invoking the callable returned by `forward` with further positional
inputs, for a given vectorization facility `vmap`. -/
def invokeForward {V R S : Type} (vmap : Nat → (List V → R) → List V → S)
    (f : ForwardFn V R) (extra : List V) : S :=
  vmap f.chunk f.func (f.pargs ++ extra)

/-- The method `AbstractModel.forward`. -/
def forwardFn {V R J : Type} (m : Model V R J) (args : List V) (kwargs : Dict V) :
    Except PyErr (ForwardFn V R) :=
  (getFunc m.broadcastable_params m.diff m.engine m.engineSig args kwargs).map
    (fun r => ⟨m.chunk_size, r.func, r.bvals⟩)

/-- The callable built by `AbstractModel.jacobian`: either the manual branch,
which vmaps the wrapped `_jacobian_engine`, or the automatic branch, which
vmaps `jacfwd(argnums=argnums)` applied to the wrapped `_engine`. -/
inductive JacFn (V R J : Type) where
  | manual (chunk : Nat) (func : List V → J) (pargs : List V)
  | auto (chunk : Nat) (argnums : Option Argnums) (func : List V → R) (pargs : List V)

/-- Whether a Jacobian callable takes the automatic-differentiation branch. -/
def JacFn.isAuto {V R J : Type} : JacFn V R J → Bool
  | .manual _ _ _ => false
  | .auto _ _ _ _ => true

/-- Invoking the callable returned by `jacobian` with further positional
inputs, for given vectorization and forward-mode differentiation facilities:
the manual branch never touches `jacfwd`, the automatic branch obtains the
derivative exclusively from `jacfwd`. -/
def invokeJac {V R J T : Type} (vmapJ : Nat → (List V → J) → List V → T)
    (jacfwd : Option Argnums → (List V → R) → List V → J)
    (jf : JacFn V R J) (extra : List V) : T :=
  match jf with
  | .manual c f p => vmapJ c f (p ++ extra)
  | .auto c a f p => vmapJ c (jacfwd a f) (p ++ extra)

/-- The method `AbstractModel.jacobian`: `None` when `diff` is `None`, the
manual branch when `_is_implemented(_jacobian_engine)`, otherwise the
automatic branch. -/
def jacobianFn {V R J : Type} (m : Model V R J) (args : List V) (kwargs : Dict V) :
    Except PyErr (Option (JacFn V R J)) :=
  if m.diff = .noDiff then .ok Option.none
  else if isImplemented m.jacSource then
    (getFunc m.broadcastable_params m.diff m.jacEngine m.jacSig args kwargs).map
      (fun r => some (.manual m.chunk_size r.func r.bvals))
  else
    (getFunc m.broadcastable_params m.diff m.engine m.engineSig args kwargs).map
      (fun r => some (.auto m.chunk_size r.argnums r.func r.bvals))

/-- The method `AbstractModel.__call__`.  The Python code re-passes the user
`*args, **kwargs` to the partially applied callables; those accept positional
inputs only (`def vmapped_engine(*inputs)` and `def jacobian_engine(*inputs)`),
so any keyword argument raises `TypeError`, and the positional arguments are
appended once more after the already-captured broadcastable values. -/
def modelCall {V R S J T : Type} (vmap : Nat → (List V → R) → List V → S)
    (vmapJ : Nat → (List V → J) → List V → T)
    (jacfwd : Option Argnums → (List V → R) → List V → J)
    (m : Model V R J) (args : List V) (kwargs : Dict V) :
    Except PyErr (S ⊕ S × T) :=
  match forwardFn m args kwargs with
  | .error e => .error e
  | .ok f =>
    if kwargs.isEmpty then
      match m.diff with
      | .noDiff => .ok (.inl (invokeForward vmap f args))
      | _ =>
        let out := invokeForward vmap f args
        match jacobianFn m args kwargs with
        | .error e => .error e
        | .ok (some jf) => .ok (.inr (out, invokeJac vmapJ jacfwd jf args))
        | .ok Option.none => .error .typeError
    else .error .typeError

/-- Concrete value type used for witness models: a one-dimensional "tensor"
of natural numbers, one entry per batch sample. -/
abbrev TV := List Nat

/-- Concrete engine for witness models, depending on the parameters `T1`
(broadcastable) and `TR` (non-broadcastable). -/
def engA : KwFunc TV Nat :=
  fun look => 10 * ((look "T1").getD []).headI + ((look "TR").getD []).headI

/-- Concrete engine signature for witness models: parameter `TR` without a
default, parameter `T1` with default `[1, 2]`. -/
def sigA : Signature TV := [⟨"TR", Option.none⟩, ⟨"T1", some [1, 2]⟩]

/-- A concrete model of `torch.vmap` for `TV` tensors: all inputs must share
one batch length, and the function is applied to the per-sample slices;
mismatched batch lengths or an empty input list yield no result, as the real
facility raises there. -/
def tensorVmap (f : List TV → Nat) (inputs : List TV) : Option (List Nat) :=
  match inputs.head? with
  | some x =>
    if inputs.all (fun t => t.length = x.length) then
      some ((List.range x.length).map (fun i => f (inputs.map (fun t => [t.getD i 0]))))
    else Option.none
  | Option.none => Option.none

/-- The `tensorVmap` facility in the shape `forward`/`jacobian` consume
(`chunk_size` does not change which values are computed). -/
def tvmap : Nat → (List TV → Nat) → List TV → Option (List Nat) :=
  fun _ => tensorVmap

/-- A dummy forward-mode differentiation facility for witness models. -/
def tjacfwd : Option Argnums → (List TV → Nat) → List TV → Nat :=
  fun _ f => f

/-- Witness model with `diff=None`. -/
def modelA : Model TV Nat Nat :=
  ⟨2, .noDiff, ["T1"], sigA, engA, sigA, engA, some "raise NotImplementedError"⟩

/-- Witness model with `diff="T1"`. -/
def modelB : Model TV Nat Nat :=
  ⟨2, .single "T1", ["T1"], sigA, engA, sigA, engA, some "raise NotImplementedError"⟩

/-- Witness model whose `diff` is neither `None` nor `str`/`tuple`/`list`. -/
def modelC : Model TV Nat Nat :=
  ⟨2, .invalid, ["T1"], sigA, engA, sigA, engA, some "raise NotImplementedError"⟩

/-- Witness model whose `diff` names a parameter that is not broadcastable. -/
def modelD : Model TV Nat Nat :=
  ⟨2, .single "zeta", ["T1"], sigA, engA, sigA, engA, some "raise NotImplementedError"⟩

/-- Witness model with a genuinely implemented manual `_jacobian_engine`. -/
def modelE : Model TV Nat Nat :=
  ⟨2, .single "T1", ["T1"], sigA, engA, sigA, engA, some "return x"⟩

/-- Witness model whose manual `_jacobian_engine` source merely contains the
letters `"pass"` inside an identifier. -/
def modelF : Model TV Nat Nat :=
  ⟨2, .single "T1", ["T1"], sigA, engA, sigA, engA, some "return passthrough(x)"⟩

/-- Specification-side helper: the position of a name in a list, counting from
zero, at its first occurrence. -/
def posOf (s : String) : List String → Option Nat
  | [] => Option.none
  | k :: t => if k = s then some 0 else (posOf s t).map (· + 1)

/-- Specification-side helper naming the merged map of a successful call. -/
def mergedMap {V : Type} (sig : Signature V) (args : List V) (kwargs : Dict V) : Dict V :=
  match mergeArgs sig args kwargs with
  | .ok d => d
  | .error _ => []

/-- Specification-side helper: the positions of several names in a list, or
nothing when one of them does not occur. -/
def posAll (keys : List String) : List String → Option (List Nat)
  | [] => some []
  | s :: t =>
    match posOf s keys with
    | some n => (posAll keys t).map (fun ns => n :: ns)
    | Option.none => Option.none

/-! Lemmas about the dict model. -/

theorem dictHasKey_iff {V : Type} (d : Dict V) (k : String) :
    dictHasKey d k = true ↔ k ∈ d.map Prod.fst := by
  induction d with
  | nil => simp [dictHasKey]
  | cons p t ih =>
    simp only [dictHasKey, List.any_cons, Bool.or_eq_true, beq_iff_eq,
      List.map_cons, List.mem_cons] at ih ⊢
    exact or_congr eq_comm ih

theorem dictLookup_nil {V : Type} (k : String) : dictLookup ([] : Dict V) k = Option.none := rfl

theorem dictLookup_cons {V : Type} (p : String × V) (d : Dict V) (k : String) :
    dictLookup (p :: d) k = if p.1 = k then some p.2 else dictLookup d k := by
  by_cases h : p.1 = k
  · simp [dictLookup, List.find?_cons, h]
  · simp [dictLookup, List.find?_cons, h]

theorem dictLookup_eq_none {V : Type} (d : Dict V) (k : String) :
    dictLookup d k = Option.none ↔ k ∉ d.map Prod.fst := by
  induction d with
  | nil => simp [dictLookup_nil]
  | cons p t ih =>
    by_cases h : p.1 = k
    · simp [dictLookup_cons, h]
    · simp [dictLookup_cons, h, ih, Ne.symm h]

theorem dictLookup_append {V : Type} (d1 d2 : Dict V) (k : String) :
    dictLookup (d1 ++ d2) k =
      (dictLookup d1 k).orElse (fun _ => dictLookup d2 k) := by
  induction d1 with
  | nil => simp [dictLookup_nil, Option.orElse]
  | cons p t ih =>
    by_cases h : p.1 = k
    · simp [dictLookup_cons, h, Option.orElse]
    · simp [dictLookup_cons, h, ih]

theorem dictLookup_mapset {V : Type} (d : Dict V) (k k' : String) (v : V) :
    dictLookup (d.map (fun q => if q.1 == k then (k, v) else q)) k' =
      if k' = k then (if dictHasKey d k then some v else Option.none)
      else dictLookup d k' := by
  induction d with
  | nil => by_cases h : k' = k <;> simp [dictLookup_nil, dictHasKey, h]
  | cons q t ih =>
    simp only [beq_iff_eq] at ih
    cases hq : (q.1 == k) with
    | true =>
      have hq' : q.1 = k := by simpa using hq
      by_cases hk : k' = k
      · subst hk
        simp [List.map_cons, dictLookup_cons, dictHasKey, List.any_cons, hq']
      · have hqk : q.1 ≠ k' := fun h => hk (h.symm.trans hq')
        have hkk : k ≠ k' := fun h => hk h.symm
        simp [List.map_cons, dictLookup_cons, hq', hqk, hkk, hk, ih]
    | false =>
      have hq' : q.1 ≠ k := by simpa using hq
      by_cases hk : k' = k
      · subst hk
        simp [List.map_cons, dictLookup_cons, ih, dictHasKey, List.any_cons, hq']
        rw [hq, Bool.false_or]
      · simp [List.map_cons, dictLookup_cons, ih, hk, hq']

theorem dictLookup_dictSet {V : Type} (d : Dict V) (k k' : String) (v : V) :
    dictLookup (dictSet d k v) k' = if k' = k then some v else dictLookup d k' := by
  unfold dictSet
  by_cases hk : dictHasKey d k
  · rw [if_pos hk, dictLookup_mapset, hk]
    by_cases h : k' = k <;> simp [h]
  · rw [if_neg hk, dictLookup_append]
    by_cases h : k' = k
    · subst h
      have : dictLookup d k' = Option.none := by
        rw [dictLookup_eq_none]
        intro hmem
        exact hk ((dictHasKey_iff d k').mpr hmem)
      simp [this, dictLookup_cons, Option.orElse]
    · cases hx : dictLookup d k' <;>
        simp [hx, dictLookup_cons, Ne.symm h, h, dictLookup_nil, Option.orElse]

theorem keys_mapset {V : Type} (d : Dict V) (k : String) (v : V) :
    (d.map (fun q => if q.1 == k then (k, v) else q)).map Prod.fst = d.map Prod.fst := by
  rw [List.map_map]
  apply List.map_congr_left
  intro p _
  by_cases hp : p.1 = k
  · simp [Function.comp, beq_iff_eq, hp]
  · simp [Function.comp, beq_iff_eq, hp]

theorem mem_keys_dictSet {V : Type} (d : Dict V) (k k' : String) (v : V) :
    k' ∈ (dictSet d k v).map Prod.fst ↔ k' ∈ d.map Prod.fst ∨ k' = k := by
  unfold dictSet
  by_cases hk : dictHasKey d k
  · rw [if_pos hk, keys_mapset]
    constructor
    · exact fun hmem => Or.inl hmem
    · rintro (hmem | rfl)
      · exact hmem
      · exact (dictHasKey_iff d k').mp hk
  · rw [if_neg hk, List.map_append]
    simp [List.mem_append]

theorem keys_dictSet_nodup {V : Type} (d : Dict V) (k : String) (v : V)
    (h : (d.map Prod.fst).Nodup) : ((dictSet d k v).map Prod.fst).Nodup := by
  unfold dictSet
  by_cases hk : dictHasKey d k
  · rw [if_pos hk, keys_mapset]
    exact h
  · rw [if_neg hk, List.map_append]
    have hnot : k ∉ d.map Prod.fst := fun hmem => hk ((dictHasKey_iff d k).mpr hmem)
    simp [List.nodup_append, h, hnot]

theorem keys_dictMerge_nodup {V : Type} (d1 d2 : Dict V)
    (h : (d1.map Prod.fst).Nodup) : ((dictMerge d1 d2).map Prod.fst).Nodup := by
  induction d2 generalizing d1 with
  | nil => exact h
  | cons p t ih => exact ih (dictSet d1 p.1 p.2) (keys_dictSet_nodup d1 p.1 p.2 h)

theorem mem_keys_dictMerge {V : Type} (d l : Dict V) (k : String) :
    k ∈ (dictMerge d l).map Prod.fst ↔ k ∈ d.map Prod.fst ∨ k ∈ l.map Prod.fst := by
  induction l generalizing d with
  | nil => simp [dictMerge]
  | cons p t ih =>
    show k ∈ (dictMerge (dictSet d p.1 p.2) t).map Prod.fst ↔ _
    rw [ih, mem_keys_dictSet]
    simp only [or_assoc, List.map_cons, List.mem_cons]

theorem dictLookup_dictMerge {V : Type} (d1 d2 : Dict V) (k : String)
    (h : (d2.map Prod.fst).Nodup) :
    dictLookup (dictMerge d1 d2) k =
      (dictLookup d2 k).orElse (fun _ => dictLookup d1 k) := by
  induction d2 generalizing d1 with
  | nil => simp [dictMerge, dictLookup_nil, Option.orElse]
  | cons p t ih =>
    rw [List.map_cons, List.nodup_cons] at h
    show dictLookup (dictMerge (dictSet d1 p.1 p.2) t) k = _
    rw [ih (dictSet d1 p.1 p.2) h.2, dictLookup_cons, dictLookup_dictSet]
    by_cases hk : p.1 = k
    · subst hk
      have : dictLookup t p.1 = Option.none := (dictLookup_eq_none t p.1).mpr h.1
      simp [this, Option.orElse]
    · simp [hk, Ne.symm hk]

theorem dictLookup_filter {V : Type} (d : Dict V) (q : String → Bool) (k : String) :
    dictLookup (d.filter (fun p => q p.1)) k =
      if q k then dictLookup d k else Option.none := by
  induction d with
  | nil => simp [dictLookup_nil]
  | cons p t ih =>
    by_cases hp : q p.1
    · by_cases hk : p.1 = k
      · subst hk
        simp [List.filter_cons, hp, dictLookup_cons, ih]
      · simp [List.filter_cons, hp, dictLookup_cons, hk, ih]
    · by_cases hk : p.1 = k
      · subst hk
        simp [List.filter_cons, hp, dictLookup_cons, ih, Bool.of_not_eq_true hp]
      · simp [List.filter_cons, hp, dictLookup_cons, hk, ih]

theorem foldl_dictSet_append {V : Type} (l : List (String × V)) :
    ∀ acc : Dict V, (∀ p ∈ l, dictHasKey acc p.1 = false) → (l.map Prod.fst).Nodup →
      l.foldl (fun d p => dictSet d p.1 p.2) acc = acc ++ l := by
  induction l with
  | nil => intro acc _ _; simp
  | cons p t ih =>
    intro acc hfresh hnd
    rw [List.map_cons, List.nodup_cons] at hnd
    have hp : dictHasKey acc p.1 = false := hfresh p (List.mem_cons_self p t)
    have hset : dictSet acc p.1 p.2 = acc ++ [p] := by
      unfold dictSet
      rw [hp]
      simp
    show t.foldl (fun d p => dictSet d p.1 p.2) (dictSet acc p.1 p.2) = acc ++ p :: t
    rw [hset, ih (acc ++ [p]) ?_ hnd.2]
    · simp
    · intro q hq
      have hq1 : dictHasKey acc q.1 = false := hfresh q (List.mem_cons_of_mem p hq)
      have hq2 : q.1 ≠ p.1 := by
        intro hcontra
        exact hnd.1 (hcontra ▸ List.mem_map_of_mem Prod.fst hq)
      rw [Bool.eq_false_iff]
      intro habs
      rcases (dictHasKey_iff (acc ++ [p]) q.1).mp habs with hmem
      rw [List.map_append, List.mem_append] at hmem
      rcases hmem with hmem | hmem
      · exact (Bool.eq_false_iff.mp hq1) ((dictHasKey_iff acc q.1).mpr hmem)
      · simp at hmem
        exact hq2 hmem

theorem dictOfPairs_eq_self {V : Type} (l : List (String × V))
    (h : (l.map Prod.fst).Nodup) : dictOfPairs l = l := by
  have := foldl_dictSet_append l [] (fun p _ => rfl) h
  simpa [dictOfPairs, dictMerge] using this

theorem zip_keys_values {V : Type} (l : List (String × V)) :
    List.zip (l.map Prod.fst) (l.map Prod.snd) = l := by
  induction l with
  | nil => rfl
  | cons p t ih => simp [List.zip, ih]

theorem keys_filter {V : Type} (d : Dict V) (q : String → Bool) :
    (d.filter (fun p => q p.1)).map Prod.fst = (d.map Prod.fst).filter q := by
  induction d with
  | nil => rfl
  | cons p t ih =>
    by_cases hp : q p.1
    · simp [List.filter_cons, hp, ih]
    · simp [List.filter_cons, hp, ih, Bool.of_not_eq_true hp]

theorem keys_broadcastableOf {V : Type} (bp : List String) (d : Dict V) :
    (broadcastableOf bp d).map Prod.fst = (d.map Prod.fst).filter (fun k => bp.contains k) :=
  keys_filter d (fun k => bp.contains k)

theorem lookup_merge_split {V : Type} (merged : Dict V) (q : String → Bool)
    (hnd : (merged.map Prod.fst).Nodup) (k : String) :
    dictLookup (dictMerge (merged.filter (fun p => q p.1))
      (merged.filter (fun p => !(q p.1)))) k = dictLookup merged k := by
  have hnb : ((merged.filter (fun p => !(q p.1))).map Prod.fst).Nodup := by
    rw [keys_filter merged (fun k => !(q k))]
    exact hnd.filter _
  rw [dictLookup_dictMerge _ _ k hnb, dictLookup_filter merged (fun k => !(q k)) k,
    dictLookup_filter merged q k]
  by_cases hq : q k
  · simp [hq, Option.orElse]
  · rw [Bool.of_not_eq_true hq]
    cases hx : dictLookup merged k <;> simp [hx, Option.orElse]

theorem keys_argpairs (i : Nat) (keys : List String) :
    (argpairs i keys).map Prod.fst = keys := by
  induction keys generalizing i with
  | nil => rfl
  | cons k t ih => simp [argpairs, ih]

theorem argpairs_lookup (i : Nat) (keys : List String) (s : String) :
    dictLookup (argpairs i keys) s = (posOf s keys).map (fun n => i + n) := by
  induction keys generalizing i with
  | nil => rfl
  | cons k t ih =>
    by_cases hk : k = s
    · simp [argpairs, dictLookup_cons, hk, posOf]
    · simp only [argpairs, dictLookup_cons, hk, if_false, posOf, ih (i + 1), Option.map_map]
      cases posOf s t <;> simp [Function.comp]
      omega

theorem argmap_lookup (keys : List String) (s : String) (h : keys.Nodup) :
    dictLookup (argmap keys) s = posOf s keys := by
  have hk : ((argpairs 0 keys).map Prod.fst).Nodup := by
    rw [keys_argpairs]
    exact h
  rw [argmap, dictOfPairs_eq_self _ hk, argpairs_lookup]
  cases posOf s keys <;> simp

theorem posOf_none_iff (s : String) (keys : List String) :
    posOf s keys = Option.none ↔ s ∉ keys := by
  induction keys with
  | nil => simp [posOf]
  | cons k t ih =>
    by_cases hk : k = s
    · simp [posOf, hk]
    · simp only [posOf, hk, if_false, List.mem_cons, Option.map_eq_none']
      rw [ih]
      constructor
      · intro h hmem
        rcases hmem with rfl | hm
        · exact hk rfl
        · exact h hm
      · intro h hm
        exact h (Or.inr hm)

theorem mem_keys_dictOfPairs {V : Type} (l : List (String × V)) (k : String) :
    k ∈ (dictOfPairs l).map Prod.fst ↔ k ∈ l.map Prod.fst := by
  rw [dictOfPairs, mem_keys_dictMerge]
  simp

theorem getArgnums_single_not_mem (keys : List String) (s : String)
    (h : s ∉ keys) : getArgnums (.single s) keys = .error (.keyError s) := by
  have hlook : dictLookup (argmap keys) s = Option.none := by
    rw [dictLookup_eq_none]
    intro hmem
    rw [argmap, mem_keys_dictOfPairs, keys_argpairs] at hmem
    exact h hmem
  simp [getArgnums, hlook]

theorem getArgnums_single_ok (keys : List String) (s : String) (n : Nat)
    (hnd : keys.Nodup) (h : getArgnums (.single s) keys = .ok (.single n)) :
    posOf s keys = some n := by
  rw [← argmap_lookup keys s hnd]
  simp only [getArgnums] at h
  cases hx : dictLookup (argmap keys) s with
  | none => simp [hx] at h
  | some m =>
    simp only [hx, Except.ok.injEq, Argnums.single.injEq] at h
    rw [h]

theorem lookupAll_posAll (keys : List String) (names : List String) (ns : List Nat)
    (hnd : keys.Nodup) (h : lookupAll (argmap keys) names = .ok ns) :
    posAll keys names = some ns := by
  induction names generalizing ns with
  | nil =>
    simp only [lookupAll, Except.ok.injEq] at h
    simp [posAll, ← h]
  | cons s t ih =>
    unfold lookupAll at h
    cases hx : dictLookup (argmap keys) s with
    | none => rw [hx] at h; exact absurd h (by simp)
    | some m =>
      rw [hx] at h
      cases ht : lookupAll (argmap keys) t with
      | error e => rw [ht] at h; exact absurd h (by simp [Except.map])
      | ok ms =>
        rw [ht] at h
        simp only [Except.map, Except.ok.injEq] at h
        have hpos : posOf s keys = some m := by rw [← argmap_lookup keys s hnd]; exact hx
        simp [posAll, hpos, ih ms ht, ← h]

theorem setPositional_isOk {V : Type} (args : List V) :
    ∀ (d : Dict V) (ns : List String), args.length ≤ ns.length →
      ∃ d', setPositional d ns args = .ok d' := by
  induction args with
  | nil => intro d ns _; exact ⟨d, by simp [setPositional]⟩
  | cons a rest ih =>
    intro d ns hle
    cases ns with
    | nil => simp at hle
    | cons n ns' =>
      simp only [List.length_cons, Nat.succ_le_succ_iff] at hle
      exact ih (dictSet d n a) ns' hle

theorem setPositional_untouched {V : Type} (args : List V) :
    ∀ (d d' : Dict V) (ns : List String) (k : String), k ∉ ns →
      setPositional d ns args = .ok d' → dictLookup d' k = dictLookup d k := by
  induction args with
  | nil =>
    intro d d' ns k _ h
    simp only [setPositional, Except.ok.injEq] at h
    rw [h]
  | cons a rest ih =>
    intro d d' ns k hk h
    cases ns with
    | nil => exact absurd h (by simp [setPositional])
    | cons n ns' =>
      rw [List.mem_cons, not_or] at hk
      rw [setPositional] at h
      rw [ih (dictSet d n a) d' ns' k hk.2 h, dictLookup_dictSet]
      simp [hk.1]

theorem setPositional_get {V : Type} (args : List V) :
    ∀ (d d' : Dict V) (ns : List String), ns.Nodup →
      setPositional d ns args = .ok d' →
      ∀ i (hi : i < args.length) (hin : i < ns.length),
        dictLookup d' (ns.get ⟨i, hin⟩) = some (args.get ⟨i, hi⟩) := by
  induction args with
  | nil => intro _ _ _ _ _ i hi; exact absurd hi (by simp)
  | cons a rest ih =>
    intro d d' ns hnd h i hi hin
    cases ns with
    | nil => exact absurd h (by simp [setPositional])
    | cons n ns' =>
      rw [List.nodup_cons] at hnd
      rw [setPositional] at h
      cases i with
      | zero =>
        show dictLookup d' n = some a
        rw [setPositional_untouched rest (dictSet d n a) d' ns' n hnd.1 h]
        simp [dictLookup_dictSet]
      | succ j =>
        simp only [List.length_cons, Nat.succ_lt_succ_iff] at hi hin
        exact ih (dictSet d n a) d' ns' hnd.2 h j hi hin

theorem setPositional_keys_nodup {V : Type} (args : List V) :
    ∀ (d d' : Dict V) (ns : List String), (d.map Prod.fst).Nodup →
      setPositional d ns args = .ok d' → (d'.map Prod.fst).Nodup := by
  induction args with
  | nil =>
    intro d d' ns hnd h
    simp only [setPositional, Except.ok.injEq] at h
    rw [← h]
    exact hnd
  | cons a rest ih =>
    intro d d' ns hnd h
    cases ns with
    | nil => exact absurd h (by simp [setPositional])
    | cons n ns' =>
      rw [setPositional] at h
      exact ih (dictSet d n a) d' ns' (keys_dictSet_nodup d n a hnd) h

theorem defaultArgs_keys_sublist {V : Type} (sig : Signature V) :
    ((defaultArgs sig).map Prod.fst).Sublist (sig.map Param.name) := by
  induction sig with
  | nil => simp [defaultArgs]
  | cons p t ih =>
    cases hd : p.default with
    | none => simpa [defaultArgs, List.filterMap_cons, hd] using ih.cons p.name
    | some v => simpa [defaultArgs, List.filterMap_cons, hd] using ih.cons₂ p.name

theorem mergeArgs_nodup {V : Type} (sig : Signature V) (args : List V) (kwargs : Dict V)
    (merged : Dict V) (hsig : (sig.map Param.name).Nodup)
    (h : mergeArgs sig args kwargs = .ok merged) : (merged.map Prod.fst).Nodup := by
  have hda : ((defaultArgs sig).map Prod.fst).Nodup :=
    hsig.sublist (defaultArgs_keys_sublist sig)
  have hbase : ((dictMerge (defaultArgs sig) kwargs).map Prod.fst).Nodup :=
    keys_dictMerge_nodup (defaultArgs sig) kwargs hda
  exact setPositional_keys_nodup args _ merged (sig.map Param.name) hbase h

theorem mergeArgs_isOk {V : Type} (sig : Signature V) (args : List V) (kwargs : Dict V)
    (hle : args.length ≤ sig.length) :
    ∃ merged, mergeArgs sig args kwargs = .ok merged := by
  apply setPositional_isOk
  simpa using hle

theorem getFunc_ok_inv {V R : Type} (bp : List String) (diff : DiffSpec)
    (engine : KwFunc V R) (sig : Signature V) (args : List V) (kwargs : Dict V)
    (r : FuncResult V R) (h : getFunc bp diff engine sig args kwargs = .ok r) :
    ∃ merged, mergeArgs sig args kwargs = .ok merged ∧
      r.func = wrapFunc engine ((broadcastableOf bp merged).map Prod.fst)
        (nonBroadcastableOf bp merged) ∧
      r.bvals = (broadcastableOf bp merged).map Prod.snd ∧
      (diff = .noDiff → r.argnums = Option.none) ∧
      (diff ≠ .noDiff → ∃ a,
        getArgnums diff ((broadcastableOf bp merged).map Prod.fst) = .ok a ∧
        r.argnums = some a) := by
  cases hm : mergeArgs sig args kwargs with
  | error e =>
    simp only [getFunc, hm] at h
    exact absurd h (by simp)
  | ok merged =>
    simp only [getFunc, hm] at h
    refine ⟨merged, rfl, ?_⟩
    cases diff with
    | noDiff =>
      simp only [Except.ok.injEq] at h
      rw [← h]
      exact ⟨rfl, rfl, fun _ => rfl, fun hd => absurd rfl hd⟩
    | single s =>
      cases ha : getArgnums (.single s) ((broadcastableOf bp merged).map Prod.fst) with
      | error e => simp only [ha] at h; exact absurd h (by simp)
      | ok a =>
        simp only [ha, Except.ok.injEq] at h
        rw [← h]
        exact ⟨rfl, rfl, fun hd => absurd hd (by simp), fun _ => ⟨a, rfl, rfl⟩⟩
    | multi names =>
      cases ha : getArgnums (.multi names) ((broadcastableOf bp merged).map Prod.fst) with
      | error e => simp only [ha] at h; exact absurd h (by simp)
      | ok a =>
        simp only [ha, Except.ok.injEq] at h
        rw [← h]
        exact ⟨rfl, rfl, fun hd => absurd hd (by simp), fun _ => ⟨a, rfl, rfl⟩⟩
    | invalid =>
      cases ha : getArgnums .invalid ((broadcastableOf bp merged).map Prod.fst) with
      | error e => simp only [ha] at h; exact absurd h (by simp)
      | ok a =>
        simp only [ha, Except.ok.injEq] at h
        rw [← h]
        exact ⟨rfl, rfl, fun hd => absurd hd (by simp), fun _ => ⟨a, rfl, rfl⟩⟩

theorem getFunc_argnums_error {V R : Type} (bp : List String) (diff : DiffSpec)
    (engine : KwFunc V R) (sig : Signature V) (args : List V) (kwargs : Dict V)
    (merged : Dict V) (e : PyErr) (hm : mergeArgs sig args kwargs = .ok merged)
    (hd : diff ≠ .noDiff)
    (ha : getArgnums diff ((broadcastableOf bp merged).map Prod.fst) = .error e) :
    getFunc bp diff engine sig args kwargs = .error e := by
  cases diff with
  | noDiff => exact absurd rfl hd
  | single s => simp only [getFunc, hm, ha]
  | multi names => simp only [getFunc, hm, ha]
  | invalid => simp only [getFunc, hm, ha]

theorem wrapFunc_eval {V R : Type} (engine : KwFunc V R) (bp : List String)
    (merged : Dict V) (hnd : (merged.map Prod.fst).Nodup) :
    wrapFunc engine ((broadcastableOf bp merged).map Prod.fst)
      (nonBroadcastableOf bp merged) ((broadcastableOf bp merged).map Prod.snd) =
      engine (dictLookup merged) := by
  unfold wrapFunc broadcastableOf nonBroadcastableOf
  rw [zip_keys_values]
  have hb : ((merged.filter (fun p => bp.contains p.1)).map Prod.fst).Nodup := by
    rw [keys_filter]
    exact hnd.filter _
  rw [dictOfPairs_eq_self _ hb]
  exact congrArg engine
    (funext (fun k => lookup_merge_split merged (fun k => bp.contains k) hnd k))

theorem forwardFn_ok_inv {V R J : Type} (m : Model V R J) (args : List V) (kwargs : Dict V)
    (f : ForwardFn V R) (h : forwardFn m args kwargs = .ok f) :
    ∃ r, getFunc m.broadcastable_params m.diff m.engine m.engineSig args kwargs = .ok r ∧
      f = ⟨m.chunk_size, r.func, r.bvals⟩ := by
  cases hg : getFunc m.broadcastable_params m.diff m.engine m.engineSig args kwargs with
  | error e =>
    simp only [forwardFn, hg, Except.map] at h
    exact absurd h (by simp)
  | ok r =>
    simp only [forwardFn, hg, Except.map, Except.ok.injEq] at h
    exact ⟨r, rfl, h.symm⟩

theorem forwardFn_error {V R J : Type} (m : Model V R J) (args : List V) (kwargs : Dict V)
    (e : PyErr)
    (hg : getFunc m.broadcastable_params m.diff m.engine m.engineSig args kwargs = .error e) :
    forwardFn m args kwargs = .error e := by
  simp only [forwardFn, hg, Except.map]

theorem jacobianFn_noDiff {V R J : Type} (m : Model V R J) (args : List V) (kwargs : Dict V)
    (hd : m.diff = .noDiff) : jacobianFn m args kwargs = .ok Option.none := by
  simp [jacobianFn, hd]

theorem jacobianFn_ok_inv {V R J : Type} (m : Model V R J) (args : List V) (kwargs : Dict V)
    (jf : JacFn V R J) (h : jacobianFn m args kwargs = .ok (some jf)) :
    m.diff ≠ .noDiff ∧
    (isImplemented m.jacSource = true →
      ∃ r, getFunc m.broadcastable_params m.diff m.jacEngine m.jacSig args kwargs = .ok r ∧
        jf = .manual m.chunk_size r.func r.bvals) ∧
    (isImplemented m.jacSource = false →
      ∃ r, getFunc m.broadcastable_params m.diff m.engine m.engineSig args kwargs = .ok r ∧
        jf = .auto m.chunk_size r.argnums r.func r.bvals) := by
  by_cases hd : m.diff = .noDiff
  · rw [jacobianFn_noDiff m args kwargs hd] at h
    simp at h
  · refine ⟨hd, ?_, ?_⟩
    · intro him
      rw [jacobianFn, if_neg hd, if_pos (by rw [him])] at h
      cases hg : getFunc m.broadcastable_params m.diff m.jacEngine m.jacSig args kwargs with
      | error e => rw [hg] at h; simp [Except.map] at h
      | ok r =>
        rw [hg] at h
        simp only [Except.map, Except.ok.injEq, Option.some.injEq] at h
        exact ⟨r, rfl, h.symm⟩
    · intro him
      rw [jacobianFn, if_neg hd, if_neg (by rw [him]; exact Bool.false_ne_true)] at h
      cases hg : getFunc m.broadcastable_params m.diff m.engine m.engineSig args kwargs with
      | error e => rw [hg] at h; simp [Except.map] at h
      | ok r =>
        rw [hg] at h
        simp only [Except.map, Except.ok.injEq, Option.some.injEq] at h
        exact ⟨r, rfl, h.symm⟩

theorem jacobianFn_some {V R J : Type} (m : Model V R J) (args : List V) (kwargs : Dict V)
    (o : Option (JacFn V R J)) (hd : m.diff ≠ .noDiff)
    (h : jacobianFn m args kwargs = .ok o) : ∃ jf, o = some jf := by
  rw [jacobianFn, if_neg hd] at h
  by_cases him : isImplemented m.jacSource
  · rw [if_pos him] at h
    cases hg : getFunc m.broadcastable_params m.diff m.jacEngine m.jacSig args kwargs with
    | error e => rw [hg] at h; simp [Except.map] at h
    | ok r =>
      rw [hg] at h
      simp only [Except.map, Except.ok.injEq] at h
      exact ⟨_, h.symm⟩
  · rw [if_neg him] at h
    cases hg : getFunc m.broadcastable_params m.diff m.engine m.engineSig args kwargs with
    | error e => rw [hg] at h; simp [Except.map] at h
    | ok r =>
      rw [hg] at h
      simp only [Except.map, Except.ok.injEq] at h
      exact ⟨_, h.symm⟩

theorem jacobianFn_error {V R J : Type} (m : Model V R J) (args : List V) (kwargs : Dict V)
    (e : PyErr) (hd : m.diff ≠ .noDiff)
    (hj : getFunc m.broadcastable_params m.diff m.jacEngine m.jacSig args kwargs = .error e)
    (he : getFunc m.broadcastable_params m.diff m.engine m.engineSig args kwargs = .error e) :
    jacobianFn m args kwargs = .error e := by
  rw [jacobianFn, if_neg hd]
  by_cases him : isImplemented m.jacSource
  · rw [if_pos him, hj]
    rfl
  · rw [if_neg him, he]
    rfl

theorem modelCall_ok_inv {V R S J T : Type} (vmap : Nat → (List V → R) → List V → S)
    (vmapJ : Nat → (List V → J) → List V → T)
    (jacfwd : Option Argnums → (List V → R) → List V → J)
    (m : Model V R J) (args : List V) (kwargs : Dict V) (out : S ⊕ S × T)
    (h : modelCall vmap vmapJ jacfwd m args kwargs = .ok out) :
    kwargs = [] ∧ ∃ f, forwardFn m args kwargs = .ok f ∧
      (∀ s, out = .inl s → s = invokeForward vmap f args) ∧
      (∀ s t, out = .inr (s, t) → s = invokeForward vmap f args) := by
  cases hf : forwardFn m args kwargs with
  | error e =>
    simp only [modelCall, hf] at h
    exact absurd h (by simp)
  | ok f =>
    simp only [modelCall, hf] at h
    cases hkw : kwargs.isEmpty with
    | false => rw [hkw] at h; simp at h
    | true =>
      rw [hkw] at h
      simp only [if_true] at h
      have hnil : kwargs = [] := by
        cases kwargs with
        | nil => rfl
        | cons p t => simp [List.isEmpty] at hkw
      refine ⟨hnil, f, rfl, ?_⟩
      cases hd : m.diff with
      | noDiff =>
        rw [hd] at h
        simp only [Except.ok.injEq] at h
        constructor
        · intro s hs
          rw [← h] at hs
          simp only [Sum.inl.injEq] at hs
          rw [hs]
        · intro s t hs
          rw [← h] at hs
          exact absurd hs (by simp)
      | single nm =>
        rw [hd] at h
        cases hj : jacobianFn m args kwargs with
        | error e => rw [hj] at h; simp at h
        | ok o =>
          rw [hj] at h
          cases o with
          | none => simp at h
          | some jf =>
            simp only [Except.ok.injEq] at h
            constructor
            · intro s hs
              rw [← h] at hs
              exact absurd hs (by simp)
            · intro s t hs
              rw [← h] at hs
              simp only [Sum.inr.injEq, Prod.mk.injEq] at hs
              rw [hs.1]
      | multi nms =>
        rw [hd] at h
        cases hj : jacobianFn m args kwargs with
        | error e => rw [hj] at h; simp at h
        | ok o =>
          rw [hj] at h
          cases o with
          | none => simp at h
          | some jf =>
            simp only [Except.ok.injEq] at h
            constructor
            · intro s hs
              rw [← h] at hs
              exact absurd hs (by simp)
            · intro s t hs
              rw [← h] at hs
              simp only [Sum.inr.injEq, Prod.mk.injEq] at hs
              rw [hs.1]
      | invalid =>
        rw [hd] at h
        cases hj : jacobianFn m args kwargs with
        | error e => rw [hj] at h; simp at h
        | ok o =>
          rw [hj] at h
          cases o with
          | none => simp at h
          | some jf =>
            simp only [Except.ok.injEq] at h
            constructor
            · intro s hs
              rw [← h] at hs
              exact absurd hs (by simp)
            · intro s t hs
              rw [← h] at hs
              simp only [Sum.inr.injEq, Prod.mk.injEq] at hs
              rw [hs.1]

theorem modelCall_error_forward {V R S J T : Type} (vmap : Nat → (List V → R) → List V → S)
    (vmapJ : Nat → (List V → J) → List V → T)
    (jacfwd : Option Argnums → (List V → R) → List V → J)
    (m : Model V R J) (args : List V) (kwargs : Dict V) (e : PyErr)
    (hf : forwardFn m args kwargs = .error e) :
    modelCall vmap vmapJ jacfwd m args kwargs = .error e := by
  simp only [modelCall, hf]

theorem getArgnums_single_shape (keys : List String) (s : String) (a : Argnums)
    (h : getArgnums (.single s) keys = .ok a) :
    ∃ n, dictLookup (argmap keys) s = some n ∧ a = .single n := by
  simp only [getArgnums] at h
  cases hx : dictLookup (argmap keys) s with
  | none => rw [hx] at h; exact absurd h (by simp)
  | some n =>
    rw [hx] at h
    simp only [Except.ok.injEq] at h
    exact ⟨n, rfl, h.symm⟩

theorem getArgnums_multi_shape (keys : List String) (names : List String) (a : Argnums)
    (h : getArgnums (.multi names) keys = .ok a) :
    ∃ ns, lookupAll (argmap keys) names = .ok ns ∧ a = .multi ns := by
  simp only [getArgnums] at h
  cases hx : lookupAll (argmap keys) names with
  | error e => rw [hx] at h; exact absurd h (by simp [Except.map])
  | ok ns =>
    rw [hx] at h
    simp only [Except.map, Except.ok.injEq] at h
    exact ⟨ns, rfl, h.symm⟩

theorem contains_false_not_mem (l : List String) (a : String)
    (h : l.contains a = false) : a ∉ l := by
  intro hm
  rw [List.contains_eq_any_beq] at h
  simp [List.any_eq_true] at h
  exact h a hm rfl

/-! Claim theorems. -/

/-- Claim C1 (code bug): calling `__call__` with tissue and sequence arguments
should return only the forward output for `diff=None` and a pair for a
selected `diff`; but `__call__` re-passes the user keyword arguments to the
partially applied `vmapped_engine(*inputs)` callable, which accepts positional
inputs only, so any keyword call raises `TypeError` instead of returning.  The
two final conjuncts show that purely positional calls do return the shapes the
claim describes. -/
theorem claim_C1_call_shape :
    modelCall tvmap tvmap tjacfwd modelA [] [("TR", [5, 6])] = .error .typeError ∧
    modelCall tvmap tvmap tjacfwd modelB [] [("TR", [5, 6])] = .error .typeError ∧
    (∃ s, modelCall tvmap tvmap tjacfwd modelA [] [] = .ok (.inl s)) ∧
    (∃ s t, modelCall tvmap tvmap tjacfwd modelB [] [] = .ok (.inr (s, t))) :=
  ⟨rfl, rfl, ⟨_, rfl⟩, ⟨_, _, rfl⟩⟩

/-- Claim C2: the merged argument map of `_get_func` is split into the
broadcastable group (exactly the entries whose name is a parameter of
`set_properties`, i.e. a member of `broadcastable_params`) and the
non-broadcastable group (all the others); the two groups cover the merged map
and are disjoint. -/
theorem claim_C2_partition {V R J : Type} (m : Model V R J) (args : List V)
    (kwargs : Dict V) (merged : Dict V)
    (_hm : mergeArgs m.engineSig args kwargs = .ok merged) :
    (∀ p, p ∈ broadcastableOf m.broadcastable_params merged ↔
      p ∈ merged ∧ m.broadcastable_params.contains p.1 = true) ∧
    (∀ p, p ∈ nonBroadcastableOf m.broadcastable_params merged ↔
      p ∈ merged ∧ m.broadcastable_params.contains p.1 = false) ∧
    (∀ p, p ∈ merged →
      (p ∈ broadcastableOf m.broadcastable_params merged ∨
       p ∈ nonBroadcastableOf m.broadcastable_params merged)) ∧
    (∀ p, ¬(p ∈ broadcastableOf m.broadcastable_params merged ∧
            p ∈ nonBroadcastableOf m.broadcastable_params merged)) := by
  refine ⟨?_, ?_, ?_, ?_⟩
  · intro p
    simp [broadcastableOf, List.mem_filter]
  · intro p
    simp [nonBroadcastableOf, List.mem_filter]
  · intro p hp
    by_cases hc : m.broadcastable_params.contains p.1
    · exact Or.inl (List.mem_filter.mpr ⟨hp, hc⟩)
    · have hcf : m.broadcastable_params.contains p.1 = false := Bool.eq_false_iff.mpr hc
      exact Or.inr (List.mem_filter.mpr ⟨hp, by rw [hcf]; rfl⟩)
  · rintro p ⟨h1, h2⟩
    have c1 := (List.mem_filter.mp h1).2
    have c2 := (List.mem_filter.mp h2).2
    rw [c1] at c2
    exact absurd c2 (by simp)

/-- Witness for claim C2 at a concrete model and call. -/
theorem claim_C2_witness :
    ("T1", ([1, 2] : TV)) ∈ broadcastableOf modelA.broadcastable_params
        [("T1", [1, 2]), ("TR", [5, 6, 7])] ↔
      ("T1", ([1, 2] : TV)) ∈ [("T1", ([1, 2] : TV)), ("TR", [5, 6, 7])] ∧
      modelA.broadcastable_params.contains "T1" = true :=
  (claim_C2_partition modelA [[5, 6, 7]] [] [("T1", [1, 2]), ("TR", [5, 6, 7])] rfl).1
    ("T1", [1, 2])

/-- Claim C3 counterexample: for the concrete model `modelA` called with one
positional argument, `__call__` yields `none` (the vectorization facility
rejects the re-passed positional argument, whose batch length differs), while
the engine vectorized over exactly the broadcastable argument values yields
`some [15, 25]`; so the forward output does not equal the vectorized engine
evaluated on exactly those arguments. -/
theorem claim_C3_counterexample :
    modelCall tvmap tvmap tjacfwd modelA [[5, 6, 7]] [] = .ok (.inl Option.none) ∧
    tvmap modelA.chunk_size
      (wrapFunc modelA.engine
        ((broadcastableOf modelA.broadcastable_params
            [("T1", [1, 2]), ("TR", [5, 6, 7])]).map Prod.fst)
        (nonBroadcastableOf modelA.broadcastable_params
            [("T1", [1, 2]), ("TR", [5, 6, 7])]))
      ((broadcastableOf modelA.broadcastable_params
          [("T1", [1, 2]), ("TR", [5, 6, 7])]).map Prod.snd) = some [15, 25] ∧
    (Option.none : Option (List Nat)) ≠ some [15, 25] :=
  ⟨rfl, rfl, by simp⟩

/-- Claim C3 (amended): when `__call__` succeeds, its forward output equals
the engine vectorized over the broadcastable argument values — with the
non-broadcastable arguments captured unchanged in the wrapped engine — applied
to those values followed by the user positional arguments passed once more; in
particular, for a call without positional arguments it is the vectorized
engine on exactly the broadcastable values. -/
theorem claim_C3_forward_output {V R S J T : Type}
    (vmap : Nat → (List V → R) → List V → S)
    (vmapJ : Nat → (List V → J) → List V → T)
    (jacfwd : Option Argnums → (List V → R) → List V → J)
    (m : Model V R J) (args : List V) (kwargs : Dict V) (out : S ⊕ S × T)
    (h : modelCall vmap vmapJ jacfwd m args kwargs = .ok out) :
    ∃ merged, mergeArgs m.engineSig args kwargs = .ok merged ∧
      (∀ s, out = .inl s → s = vmap m.chunk_size
        (wrapFunc m.engine
          ((broadcastableOf m.broadcastable_params merged).map Prod.fst)
          (nonBroadcastableOf m.broadcastable_params merged))
        (((broadcastableOf m.broadcastable_params merged).map Prod.snd) ++ args)) ∧
      (∀ s t, out = .inr (s, t) → s = vmap m.chunk_size
        (wrapFunc m.engine
          ((broadcastableOf m.broadcastable_params merged).map Prod.fst)
          (nonBroadcastableOf m.broadcastable_params merged))
        (((broadcastableOf m.broadcastable_params merged).map Prod.snd) ++ args)) := by
  obtain ⟨hkw, f, hf, hinl, hinr⟩ :=
    modelCall_ok_inv vmap vmapJ jacfwd m args kwargs out h
  obtain ⟨r, hg, hfe⟩ := forwardFn_ok_inv m args kwargs f hf
  obtain ⟨merged, hm, hfunc, hbv, _, _⟩ :=
    getFunc_ok_inv m.broadcastable_params m.diff m.engine m.engineSig args kwargs r hg
  refine ⟨merged, hm, ?_, ?_⟩
  · intro s hs
    rw [hinl s hs, hfe]
    simp only [invokeForward]
    rw [hfunc, hbv]
  · intro s t hs
    rw [hinr s t hs, hfe]
    simp only [invokeForward]
    rw [hfunc, hbv]

/-- Witness for the amended claim C3 at a concrete model and call. -/
theorem claim_C3_witness :
    ∃ merged, mergeArgs modelA.engineSig [[5, 6, 7]] [] = .ok merged ∧
      (∀ s, (Sum.inl Option.none : Option (List Nat) ⊕ Option (List Nat) × Option (List Nat)) =
          .inl s → s = tvmap modelA.chunk_size
        (wrapFunc modelA.engine
          ((broadcastableOf modelA.broadcastable_params merged).map Prod.fst)
          (nonBroadcastableOf modelA.broadcastable_params merged))
        (((broadcastableOf modelA.broadcastable_params merged).map Prod.snd) ++ [[5, 6, 7]])) ∧
      (∀ s t, (Sum.inl Option.none : Option (List Nat) ⊕ Option (List Nat) × Option (List Nat)) =
          .inr (s, t) → s = tvmap modelA.chunk_size
        (wrapFunc modelA.engine
          ((broadcastableOf modelA.broadcastable_params merged).map Prod.fst)
          (nonBroadcastableOf modelA.broadcastable_params merged))
        (((broadcastableOf modelA.broadcastable_params merged).map Prod.snd) ++ [[5, 6, 7]])) :=
  claim_C3_forward_output tvmap tvmap tjacfwd modelA [[5, 6, 7]] []
    (.inl Option.none) rfl

/-- Claim C4: `forward` returns a callable description whose vectorization
chunk size is the model's `chunk_size`, whose function is the wrapped engine,
and whose partially applied inputs are the broadcastable argument values, so
that invoking it with no further inputs applies the vectorization facility to
the wrapped engine at exactly those values. -/
theorem claim_C4_forward_structure {V R J : Type} (S : Type) (m : Model V R J)
    (args : List V) (kwargs : Dict V) (f : ForwardFn V R)
    (h : forwardFn m args kwargs = .ok f) :
    ∃ merged, mergeArgs m.engineSig args kwargs = .ok merged ∧
      f.chunk = m.chunk_size ∧
      f.func = wrapFunc m.engine
        ((broadcastableOf m.broadcastable_params merged).map Prod.fst)
        (nonBroadcastableOf m.broadcastable_params merged) ∧
      f.pargs = (broadcastableOf m.broadcastable_params merged).map Prod.snd ∧
      ∀ (vmap : Nat → (List V → R) → List V → S),
        invokeForward vmap f [] = vmap m.chunk_size f.func f.pargs := by
  obtain ⟨r, hg, hfe⟩ := forwardFn_ok_inv m args kwargs f h
  obtain ⟨merged, hm, hfunc, hbv, _, _⟩ :=
    getFunc_ok_inv m.broadcastable_params m.diff m.engine m.engineSig args kwargs r hg
  subst hfe
  exact ⟨merged, hm, rfl, hfunc, hbv, fun vmap => by simp [invokeForward]⟩

/-- Witness for claim C4 at a concrete model and call. -/
theorem claim_C4_witness :
    ∃ merged, mergeArgs modelA.engineSig ([] : List TV) [] = .ok merged ∧
      (⟨2, wrapFunc engA ["T1"] [], [[1, 2]]⟩ : ForwardFn TV Nat).chunk = modelA.chunk_size ∧
      (⟨2, wrapFunc engA ["T1"] [], [[1, 2]]⟩ : ForwardFn TV Nat).func = wrapFunc modelA.engine
        ((broadcastableOf modelA.broadcastable_params merged).map Prod.fst)
        (nonBroadcastableOf modelA.broadcastable_params merged) ∧
      (⟨2, wrapFunc engA ["T1"] [], [[1, 2]]⟩ : ForwardFn TV Nat).pargs =
        (broadcastableOf modelA.broadcastable_params merged).map Prod.snd ∧
      ∀ (vmap : Nat → (List TV → Nat) → List TV → Option (List Nat)),
        invokeForward vmap (⟨2, wrapFunc engA ["T1"] [], [[1, 2]]⟩ : ForwardFn TV Nat) [] =
          vmap modelA.chunk_size (⟨2, wrapFunc engA ["T1"] [], [[1, 2]]⟩ : ForwardFn TV Nat).func
            (⟨2, wrapFunc engA ["T1"] [], [[1, 2]]⟩ : ForwardFn TV Nat).pargs :=
  claim_C4_forward_structure (Option (List Nat)) modelA [] []
    ⟨2, wrapFunc engA ["T1"] [], [[1, 2]]⟩ rfl

/-- Claim C5: `jacobian` returns `None` exactly when `diff` is `None`;
otherwise on success it returns a callable that takes the manual branch
(vmapping `_jacobian_engine`) when `_is_implemented` holds and the automatic
branch otherwise; the automatic branch obtains the derivative exclusively by
handing `_engine` to the external `jacfwd` facility. -/
theorem claim_C5_jacobian {V R J : Type} (T' : Type) (m : Model V R J)
    (args : List V) (kwargs : Dict V) :
    (m.diff = .noDiff → jacobianFn m args kwargs = .ok Option.none) ∧
    (∀ o, m.diff ≠ .noDiff → jacobianFn m args kwargs = .ok o → ∃ jf, o = some jf) ∧
    (∀ jf, jacobianFn m args kwargs = .ok (some jf) →
      (isImplemented m.jacSource = true →
        ∃ r, getFunc m.broadcastable_params m.diff m.jacEngine m.jacSig args kwargs = .ok r ∧
          jf = .manual m.chunk_size r.func r.bvals) ∧
      (isImplemented m.jacSource = false →
        ∃ r, getFunc m.broadcastable_params m.diff m.engine m.engineSig args kwargs = .ok r ∧
          jf = .auto m.chunk_size r.argnums r.func r.bvals)) ∧
    (∀ (vmapJ : Nat → (List V → J) → List V → T')
       (jacfwd : Option Argnums → (List V → R) → List V → J) (c : Nat)
       (a : Option Argnums) (en : List V → R) (pa extra : List V),
      invokeJac vmapJ jacfwd (.auto c a en pa) extra = vmapJ c (jacfwd a en) (pa ++ extra)) := by
  refine ⟨jacobianFn_noDiff m args kwargs, ?_, ?_, ?_⟩
  · intro o hd h
    exact jacobianFn_some m args kwargs o hd h
  · intro jf h
    exact (jacobianFn_ok_inv m args kwargs jf h).2
  · intro vmapJ jacfwd c a en pa extra
    rfl

/-- Witness for claim C5 at a concrete model. -/
theorem claim_C5_witness : jacobianFn modelA ([] : List TV) [] = .ok Option.none :=
  (claim_C5_jacobian Nat modelA [] []).1 rfl

/-- Claim C6: on a successful `_get_func` call, the differentiation indices
are the positions of the selected names among the broadcastable arguments in
their enumeration order — a bare position for a `str` diff, the list of
positions for a `tuple`/`list` diff. -/
theorem claim_C6_argnums {V R : Type} (bp : List String) (diff : DiffSpec)
    (engine : KwFunc V R) (sig : Signature V) (args : List V) (kwargs : Dict V)
    (r : FuncResult V R) (merged : Dict V)
    (hsig : (sig.map Param.name).Nodup)
    (hm : mergeArgs sig args kwargs = .ok merged)
    (h : getFunc bp diff engine sig args kwargs = .ok r) :
    (∀ s, diff = .single s → ∃ n,
      posOf s ((broadcastableOf bp merged).map Prod.fst) = some n ∧
      r.argnums = some (.single n)) ∧
    (∀ names, diff = .multi names → ∃ ns,
      posAll ((broadcastableOf bp merged).map Prod.fst) names = some ns ∧
      r.argnums = some (.multi ns)) := by
  obtain ⟨merged', hm', hfunc, hbv, hnone, hsome⟩ :=
    getFunc_ok_inv bp diff engine sig args kwargs r h
  have hmm : merged = merged' := by
    have hoo := hm.symm.trans hm'
    injection hoo
  subst hmm
  have hnd : ((broadcastableOf bp merged).map Prod.fst).Nodup := by
    rw [keys_broadcastableOf]
    exact (mergeArgs_nodup sig args kwargs merged hsig hm).filter _
  constructor
  · rintro s rfl
    obtain ⟨a, ha, hr⟩ := hsome (by simp)
    obtain ⟨n, hlook, haa⟩ :=
      getArgnums_single_shape ((broadcastableOf bp merged).map Prod.fst) s a ha
    refine ⟨n, ?_, by rw [hr, haa]⟩
    rw [← argmap_lookup ((broadcastableOf bp merged).map Prod.fst) s hnd]
    exact hlook
  · rintro names rfl
    obtain ⟨a, ha, hr⟩ := hsome (by simp)
    obtain ⟨ns, hlook, haa⟩ :=
      getArgnums_multi_shape ((broadcastableOf bp merged).map Prod.fst) names a ha
    exact ⟨ns, lookupAll_posAll _ names ns hnd hlook, by rw [hr, haa]⟩

/-- Witness for claim C6 at a concrete model and call: the index for
`diff="T1"` is position 0 among the broadcastable arguments. -/
theorem claim_C6_witness :
    ∃ n, posOf "T1" ((broadcastableOf modelB.broadcastable_params
        [("T1", ([1, 2] : TV)), ("TR", [5, 6, 7])]).map Prod.fst) = some n ∧
      (FuncResult.argnums ⟨wrapFunc engA ["T1"] [("TR", [5, 6, 7])], [[1, 2]],
        some (.single 0)⟩ : Option Argnums) = some (.single n) :=
  (claim_C6_argnums modelB.broadcastable_params modelB.diff modelB.engine
    modelB.engineSig [[5, 6, 7]] [] ⟨wrapFunc engA ["T1"] [("TR", [5, 6, 7])], [[1, 2]],
      some (.single 0)⟩ [("T1", [1, 2]), ("TR", [5, 6, 7])]
    (by decide) rfl rfl).1 "T1" rfl

/-- Claim C7: the wrapped function returned by `_get_func`, applied
positionally to the broadcastable argument values in enumeration order,
returns exactly what the original engine returns when called directly with
the full merged argument map. -/
theorem claim_C7_dispatch_equiv {V R : Type} (bp : List String) (diff : DiffSpec)
    (engine : KwFunc V R) (sig : Signature V) (args : List V) (kwargs : Dict V)
    (r : FuncResult V R) (merged : Dict V)
    (hsig : (sig.map Param.name).Nodup)
    (hm : mergeArgs sig args kwargs = .ok merged)
    (h : getFunc bp diff engine sig args kwargs = .ok r) :
    r.func r.bvals = engine (dictLookup merged) := by
  obtain ⟨merged', hm', hfunc, hbv, _, _⟩ :=
    getFunc_ok_inv bp diff engine sig args kwargs r h
  have hmm : merged = merged' := by
    have hoo := hm.symm.trans hm'
    injection hoo
  subst hmm
  rw [hfunc, hbv]
  exact wrapFunc_eval engine bp merged (mergeArgs_nodup sig args kwargs merged hsig hm)

/-- Witness for claim C7 at a concrete engine and call. -/
theorem claim_C7_witness :
    wrapFunc engA ["T1"] [("TR", [5, 6, 7])] [[1, 2]] =
      engA (dictLookup [("T1", [1, 2]), ("TR", [5, 6, 7])]) :=
  claim_C7_dispatch_equiv ["T1"] .noDiff engA sigA [[5, 6, 7]] []
    ⟨wrapFunc engA ["T1"] [("TR", [5, 6, 7])], [[1, 2]], Option.none⟩
    [("T1", [1, 2]), ("TR", [5, 6, 7])] (by decide) rfl rfl

/-- Claim C8: for a `diff` that is neither `None` nor a string nor a
tuple/list, `forward`, `jacobian` and `__call__` all raise `ValueError` from
`_get_argnums`; for a string `diff` naming a parameter that is not among the
broadcastable arguments (of either engine signature), the `ARGMAP` lookup
raises `KeyError` instead of producing a result.  The positional arguments
are assumed to fit the signatures, so that the calls reach `_get_argnums`. -/
theorem claim_C8_diff_errors {V R S J T : Type}
    (vmap : Nat → (List V → R) → List V → S)
    (vmapJ : Nat → (List V → J) → List V → T)
    (jacfwd : Option Argnums → (List V → R) → List V → J)
    (m : Model V R J) (args : List V) (kwargs : Dict V)
    (hle : args.length ≤ m.engineSig.length) (hlj : args.length ≤ m.jacSig.length) :
    (m.diff = .invalid →
      forwardFn m args kwargs = .error .valueError ∧
      jacobianFn m args kwargs = .error .valueError ∧
      modelCall vmap vmapJ jacfwd m args kwargs = .error .valueError) ∧
    (∀ s, m.diff = .single s →
      ((broadcastableOf m.broadcastable_params
          (mergedMap m.engineSig args kwargs)).map Prod.fst).contains s = false →
      ((broadcastableOf m.broadcastable_params
          (mergedMap m.jacSig args kwargs)).map Prod.fst).contains s = false →
      forwardFn m args kwargs = .error (.keyError s) ∧
      jacobianFn m args kwargs = .error (.keyError s) ∧
      modelCall vmap vmapJ jacfwd m args kwargs = .error (.keyError s)) := by
  obtain ⟨mergedE, hmE⟩ := mergeArgs_isOk m.engineSig args kwargs hle
  obtain ⟨mergedJ, hmJ⟩ := mergeArgs_isOk m.jacSig args kwargs hlj
  have hmmE : mergedMap m.engineSig args kwargs = mergedE := by
    simp [mergedMap, hmE]
  have hmmJ : mergedMap m.jacSig args kwargs = mergedJ := by
    simp [mergedMap, hmJ]
  constructor
  · intro hd
    have hgE : getFunc m.broadcastable_params m.diff m.engine m.engineSig args kwargs =
        .error .valueError := by
      refine getFunc_argnums_error _ _ _ _ _ _ mergedE _ hmE ?_ ?_
      · rw [hd]
        simp
      · rw [hd]
        rfl
    have hgJ : getFunc m.broadcastable_params m.diff m.jacEngine m.jacSig args kwargs =
        .error .valueError := by
      refine getFunc_argnums_error _ _ _ _ _ _ mergedJ _ hmJ ?_ ?_
      · rw [hd]
        simp
      · rw [hd]
        rfl
    have hfwd := forwardFn_error m args kwargs .valueError hgE
    refine ⟨hfwd, ?_, modelCall_error_forward vmap vmapJ jacfwd m args kwargs _ hfwd⟩
    exact jacobianFn_error m args kwargs .valueError (by rw [hd]; simp) hgJ hgE
  · intro s hd hcE hcJ
    rw [hmmE] at hcE
    rw [hmmJ] at hcJ
    have haE : getArgnums (.single s)
        ((broadcastableOf m.broadcastable_params mergedE).map Prod.fst) =
        .error (.keyError s) :=
      getArgnums_single_not_mem _ s (contains_false_not_mem _ s hcE)
    have haJ : getArgnums (.single s)
        ((broadcastableOf m.broadcastable_params mergedJ).map Prod.fst) =
        .error (.keyError s) :=
      getArgnums_single_not_mem _ s (contains_false_not_mem _ s hcJ)
    have hgE : getFunc m.broadcastable_params m.diff m.engine m.engineSig args kwargs =
        .error (.keyError s) := by
      refine getFunc_argnums_error _ _ _ _ _ _ mergedE _ hmE ?_ ?_
      · rw [hd]
        simp
      · rw [hd]
        exact haE
    have hgJ : getFunc m.broadcastable_params m.diff m.jacEngine m.jacSig args kwargs =
        .error (.keyError s) := by
      refine getFunc_argnums_error _ _ _ _ _ _ mergedJ _ hmJ ?_ ?_
      · rw [hd]
        simp
      · rw [hd]
        exact haJ
    have hfwd := forwardFn_error m args kwargs (.keyError s) hgE
    refine ⟨hfwd, ?_, modelCall_error_forward vmap vmapJ jacfwd m args kwargs _ hfwd⟩
    exact jacobianFn_error m args kwargs (.keyError s) (by rw [hd]; simp) hgJ hgE

/-- Witness for claim C8 at concrete models: an unsupported `diff` raises
`ValueError`, a `diff` naming a non-broadcastable parameter raises `KeyError`. -/
theorem claim_C8_witness :
    (forwardFn modelC ([] : List TV) [] = .error .valueError ∧
     jacobianFn modelC ([] : List TV) [] = .error .valueError ∧
     modelCall tvmap tvmap tjacfwd modelC [] [] = .error .valueError) ∧
    (forwardFn modelD ([] : List TV) [] = .error (.keyError "zeta") ∧
     jacobianFn modelD ([] : List TV) [] = .error (.keyError "zeta") ∧
     modelCall tvmap tvmap tjacfwd modelD [] [] = .error (.keyError "zeta")) :=
  ⟨(claim_C8_diff_errors tvmap tvmap tjacfwd modelC [] []
      (Nat.zero_le _) (Nat.zero_le _)).1 rfl,
   (claim_C8_diff_errors tvmap tvmap tjacfwd modelD [] []
      (Nat.zero_le _) (Nat.zero_le _)).2 "zeta" rfl rfl rfl⟩

/-- Claim C9: `_is_implemented` reports "not implemented" exactly when the
retrievable source text contains the substring `"raise NotImplementedError"`
or the substring `"pass"` anywhere, and reports "not implemented" when the
source cannot be retrieved; consequently a manual `_jacobian_engine` whose
source merely contains the letters `"pass"` is silently routed to the
automatic-differentiation branch of `jacobian`. -/
theorem claim_C9_is_implemented :
    (∀ src, isImplemented (some src) = false ↔
      (strContains src "raise NotImplementedError" = true ∨
       strContains src "pass" = true)) ∧
    isImplemented Option.none = false ∧
    (∀ (V R J : Type) (m : Model V R J) (args : List V) (kwargs : Dict V)
      (src : String) (jf : JacFn V R J),
      m.jacSource = some src → strContains src "pass" = true →
      jacobianFn m args kwargs = .ok (some jf) → jf.isAuto = true) := by
  refine ⟨?_, rfl, ?_⟩
  · intro src
    unfold isImplemented
    cases h1 : strContains src "raise NotImplementedError" <;>
      cases h2 : strContains src "pass" <;> simp [h1, h2]
  · intro V R J m args kwargs src jf hsrc hpass h
    have him : isImplemented m.jacSource = false := by
      rw [hsrc]
      show (!strContains src "raise NotImplementedError" && !strContains src "pass") = false
      rw [hpass]
      simp
    obtain ⟨_, _, hauto⟩ := jacobianFn_ok_inv m args kwargs jf h
    obtain ⟨r, _, hjf⟩ := hauto him
    rw [hjf]
    rfl

/-- Witness for claim C9: a source text containing `"pass"` only inside an
identifier is classified as not implemented. -/
theorem claim_C9_witness : isImplemented (some "return passthrough(x)") = false :=
  (claim_C9_is_implemented.1 "return passthrough(x)").mpr (Or.inr rfl)

/-- Claim C10: an argument supplied both positionally and as a keyword does
not raise an error; the positional value silently overwrites the keyword (and
default) value, since the positional arguments are written last onto the
merged map. -/
theorem claim_C10_positional_overrides {V : Type} (sig : Signature V)
    (args : List V) (kwargs : Dict V) (i : Nat) (hi : i < args.length)
    (hle : args.length ≤ sig.length)
    (hsig : (sig.map Param.name).Nodup)
    (_hkw : dictHasKey kwargs ((sig.get ⟨i, Nat.lt_of_lt_of_le hi hle⟩).name) = true) :
    ∃ merged, mergeArgs sig args kwargs = .ok merged ∧
      dictLookup merged ((sig.get ⟨i, Nat.lt_of_lt_of_le hi hle⟩).name) =
        some (args.get ⟨i, hi⟩) := by
  obtain ⟨merged, hm⟩ := mergeArgs_isOk sig args kwargs hle
  refine ⟨merged, hm, ?_⟩
  have hin : i < (sig.map Param.name).length := by
    simpa using Nat.lt_of_lt_of_le hi hle
  have hget := setPositional_get args _ merged (sig.map Param.name) hsig hm i hi hin
  rw [List.get_map] at hget
  exact hget

/-- Witness for claim C10: the parameter `TR` is supplied both positionally
and as a keyword; the merged map holds the positional value. -/
theorem claim_C10_witness :
    ∃ merged, mergeArgs sigA [[7]] [("TR", [4])] = .ok merged ∧
      dictLookup merged ((sigA.get ⟨0, by decide⟩).name) =
        some (([[7]] : List TV).get ⟨0, by decide⟩) :=
  claim_C10_positional_overrides sigA [[7]] [("TR", [4])] 0 (by decide) (by decide)
    (by decide) rfl

end Mrsim
